import Mathlib

/-!
Verification of the in-memory sequence-processing toolkit of the taxi-trip
analytics API (`app.py` plus the `algorithms` module it imports).

The repository ships `app.py`, whose custom endpoints call
`sort_trips_descending`, `find_top_n` and `calculate_average_by_group` from an
`algorithms` module that is not part of the checked sources; those operations
are therefore modelled from the specification (sections 4.1 - 4.5), as marked
on each definition.  The endpoint handlers (`get_custom_sorted_trips`,
`get_borough_stats_custom`) are translated from `app.py` itself.

Numbers are modelled as rationals; a record is an association list from field
names to values, mirroring the Python dictionaries built in `app.py`.
-/

namespace TaxiApi

/-- A field value of a record: a number, a string, or null (`None`). -/
inductive Value where
  | num (q : ℚ)
  | str (s : String)
  | null
deriving DecidableEq, Repr

/-- A record is an ordered mapping from field names to values, as built by
the row-to-dict conversions in `app.py`. -/
abbrev Record := List (String × Value)

/-- Dictionary lookup: the value of field `f` in record `r`, or `none` when
the field is absent (Python `dict.get`). -/
def getField (r : Record) (f : String) : Option Value :=
  (r.find? (fun p => p.1 == f)).map Prod.snd

/-- Modelled from the spec (4.1 Field-Accessor): the ordering key of the sort
field.  A present numeric value is the number itself; a null or missing value
is strictly below every present value (`⊥`).  Ordering is only specified for
numeric sort fields, so a non-numeric value also contributes no key. -/
def skey (f : String) (r : Record) : WithBot ℚ :=
  match getField r f with
  | some (Value.num q) => (q : WithBot ℚ)
  | _ => ⊥

/-- Modelled from the spec (4.2 Sequence Sorter): one full
comparison-and-exchange pass of the descending bubble sort.  Two adjacent
records are exchanged exactly when the left key is strictly smaller than the
right key, so records with equal keys are never exchanged. -/
def onePass (f : String) : List Record → List Record
  | a :: b :: rest =>
    if skey f a < skey f b then b :: onePass f (a :: rest)
    else a :: onePass f (b :: rest)
  | l => l
termination_by l => l.length

/-- Repeat bubble passes a fixed number of times (the real loop stops early
when a pass makes no exchange, which does not change the result). -/
def bubbleAux (f : String) : Nat → List Record → List Record
  | 0, l => l
  | n + 1, l => bubbleAux f n (onePass f l)

/-- Modelled from the spec (4.2 Sequence Sorter): `sort_trips_descending` of
the missing `algorithms` module, a stable descending bubble sort of the
records by field `field`.  `length` passes always suffice. -/
def sort_trips_descending (trips : List Record) (field : String) : List Record :=
  bubbleAux field trips.length trips

/-- Modelled from the spec (4.3 Top-N Selector): `find_top_n` of the missing
`algorithms` module.  Its defining correctness property is that the result is
what a full descending sort followed by truncation to `n` produces, with
`n <= 0` yielding the empty sequence. -/
def find_top_n (records : List Record) (field : String) (n : Int) : List Record :=
  if n ≤ 0 then []
  else (sort_trips_descending records field).take n.toNat

/-- Modelled from the spec (4.4 Grouping Engine): the grouping key of a
record, where a null or missing key value forms its own group instead of
raising (Python `dict.get` returns `None` for both). -/
def groupKey (r : Record) (f : String) : Value :=
  (getField r f).getD Value.null

/-- Modelled from the spec (4.4 Grouping Engine): `group_by` partitions the
records into an ordered mapping from key to the records sharing that key,
with groups listed in the order each key is first encountered. -/
def group_by (records : List Record) (field : String) : List (Value × List Record) :=
  match records with
  | [] => []
  | r :: rs =>
    (groupKey r field, r :: rs.filter (fun s => groupKey s field == groupKey r field)) ::
      group_by (rs.filter (fun s => !(groupKey s field == groupKey r field))) field
termination_by records.length
decreasing_by
  have := List.length_filter_le (fun s => !(groupKey s field == groupKey r field)) rs
  simp
  omega

/-- The keys of a list in first-occurrence order with duplicates removed:
the reference shape of the group-iteration order. -/
def dedupFirst (ks : List Value) : List Value :=
  match ks with
  | [] => []
  | k :: rest => k :: dedupFirst (rest.filter (fun x => !(x == k)))
termination_by ks.length
decreasing_by
  have := List.length_filter_le (fun x => !(x == k)) rest
  simp
  omega

/-- Modelled from the spec (4.5 Aggregator): the values of field `v` over the
records where `v` is present and numeric — the values eligible for
aggregation. -/
def eligibleValues (rs : List Record) (v : String) : List ℚ :=
  rs.filterMap (fun r =>
    match getField r v with
    | some (Value.num q) => some q
    | _ => none)

/-- Modelled from the spec (4.5 Aggregator): the arithmetic mean of a list of
eligible values, with the documented `0` sentinel for an empty list. -/
def meanOrZero (qs : List ℚ) : ℚ :=
  if qs.length = 0 then 0 else qs.sum / (qs.length : ℚ)

/-- Modelled from the spec (4.4/4.5): `calculate_average_by_group` of the
missing `algorithms` module — group the records by `gf` and map each group
key to the mean of the eligible `vf` values of its group, at full
precision. -/
def calculate_average_by_group (records : List Record) (gf vf : String) :
    List (Value × ℚ) :=
  (group_by records gf).map (fun p => (p.1, meanOrZero (eligibleValues p.2 vf)))

/-- Modelled from the spec (section 7): the typed failures of the core. -/
inductive CoreError where
  | unknownFieldError
  | missingFieldError
  | invalidFieldTypeError
deriving DecidableEq, Repr

/-- Modelled from the spec (4.2/7): sorting against a schema of known field
names.  A field name absent from the schema fails with `UnknownFieldError`
surfaced to the caller; a known field sorts exactly the given records, with
no other coercion or fabrication. -/
def sort_descending_checked (schema : List String) (records : List Record)
    (field : String) : Except CoreError (List Record) :=
  if field ∈ schema then Except.ok (sort_trips_descending records field)
  else Except.error CoreError.unknownFieldError

/-- Python integer `round`: round half to even (banker's rounding), on exact
rationals. -/
def pyRoundInt (q : ℚ) : ℤ :=
  let f : ℤ := ⌊q⌋
  let r : ℚ := q - (f : ℚ)
  if r < 1 / 2 then f
  else if 1 / 2 < r then f + 1
  else if f % 2 = 0 then f else f + 1

/-- Python `round(x, 2)`: round to 2 decimal places, half to even. -/
def round2 (q : ℚ) : ℚ := ((pyRoundInt (q * 100)) : ℚ) / 100

/-- Python slice `l[:stop]`: for a non-negative stop the first `stop`
elements; for a negative stop all but the last `|stop|` elements. -/
def pySliceTo {α : Type} (l : List α) (stop : Int) : List α :=
  if 0 ≤ stop then l.take stop.toNat
  else l.take (l.length - (-stop).toNat)

/-- The JSON payload returned by `GET /api/trips/custom-sort`
(`app.py`, `get_custom_sorted_trips`). -/
structure CustomSortResponse where
  message : String
  algorithm : String
  sorted_by : String
  total_processed : Nat
  returned : Nat
  data : List Record
deriving DecidableEq, Repr

/-- Translated from `app.py` (`get_custom_sorted_trips`): sort the fetched
trip records with the custom sorter, truncate with the Python slice
`sorted_trips[:limit]`, and report the counts. -/
def get_custom_sorted_trips (trips_list : List Record) (sort_by : String)
    (limit : Int) : CustomSortResponse :=
  let sorted_trips := sort_trips_descending trips_list sort_by
  let final_list := pySliceTo sorted_trips limit
  { message := "Sorted using custom bubble sort algorithm (not SQL ORDER BY)"
    algorithm := "Bubble Sort - O(n^2) time complexity"
    sorted_by := sort_by
    total_processed := trips_list.length
    returned := final_list.length
    data := final_list }

/-- The JSON payload returned by `GET /api/analytics/borough-custom`
(`app.py`, `get_borough_stats_custom`); each data entry is a
`(borough, average_fare)` pair. -/
structure BoroughStatsResponse where
  message : String
  algorithm : String
  data : List (Value × ℚ)
deriving DecidableEq, Repr

/-- Translated from `app.py` (`get_borough_stats_custom`): convert the
fetched `(Borough, total_amount)` rows to records, group and average them
with the custom aggregator, and round each average to 2 decimals in the
response layer. -/
def get_borough_stats_custom (results : List (Value × Value)) :
    BoroughStatsResponse :=
  let trips_with_borough := results.map (fun row =>
    ([("borough", row.1), ("total_amount", row.2)] : Record))
  let averages := calculate_average_by_group trips_with_borough "borough" "total_amount"
  { message := "Borough averages calculated with custom algorithm"
    algorithm := "Manual grouping and aggregation (not SQL GROUP BY)"
    data := averages.map (fun p => (p.1, round2 p.2)) }

/-- The example population of spec section 8: ids 1-4 with amounts
10, 30, 30, 5. -/
def exampleTrips : List Record :=
  [[("id", Value.num 1), ("amt", Value.num 10)],
   [("id", Value.num 2), ("amt", Value.num 30)],
   [("id", Value.num 3), ("amt", Value.num 30)],
   [("id", Value.num 4), ("amt", Value.num 5)]]

/-- The grouping example of spec section 8: boroughs Q, B, Q with amounts
10, 20, 30. -/
def exampleGrouped : List Record :=
  [[("b", Value.str "Q"), ("amt", Value.num 10)],
   [("b", Value.str "B"), ("amt", Value.num 20)],
   [("b", Value.str "Q"), ("amt", Value.num 30)]]

/-! ### Properties of one bubble pass -/

theorem onePass_length (f : String) (l : List Record) :
    (onePass f l).length = l.length := by
  induction l using onePass.induct f with
  | case1 a b rest h ih => simp [onePass, h] at ih ⊢; omega
  | case2 a b rest h ih => simp [onePass, h] at ih ⊢; omega
  | case3 l h => simp [onePass]

theorem onePass_perm (f : String) (l : List Record) :
    List.Perm (onePass f l) l := by
  induction l using onePass.induct f with
  | case1 a b rest h ih =>
    simp only [onePass, if_pos h]
    exact (ih.cons b).trans (List.Perm.swap a b rest)
  | case2 a b rest h ih =>
    simp only [onePass, if_neg h]
    exact ih.cons a
  | case3 l h => simp [onePass]

theorem onePass_filter_key (f : String) (k : WithBot ℚ) (l : List Record) :
    (onePass f l).filter (fun r => decide (skey f r = k)) =
      l.filter (fun r => decide (skey f r = k)) := by
  induction l using onePass.induct f with
  | case1 a b rest h ih =>
    have hab : skey f a ≠ skey f b := ne_of_lt h
    simp only [onePass, if_pos h]
    by_cases hb : skey f b = k <;> by_cases ha : skey f a = k
    · exact absurd (ha.trans hb.symm) hab
    · simp [List.filter_cons, ha, hb, ih]
    · simp [List.filter_cons, ha, hb] at ih ⊢; exact ih
    · simp [List.filter_cons, ha, hb] at ih ⊢; exact ih
  | case2 a b rest h ih =>
    simp [List.filter_cons, onePass, if_neg h] at ih ⊢
    by_cases ha : skey f a = k <;> simp [ha, ih]
  | case3 l h => simp [onePass]

theorem onePass_of_sorted (f : String) (l : List Record)
    (h : l.Sorted (fun a b => skey f b ≤ skey f a)) : onePass f l = l := by
  induction l using onePass.induct f with
  | case1 a b rest hlt ih =>
    have hba : skey f b ≤ skey f a :=
      List.rel_of_sorted_cons h b (by simp)
    exact absurd hlt (not_lt.mpr hba)
  | case2 a b rest hlt ih =>
    simp only [onePass, if_neg hlt]
    rw [ih h.of_cons]
  | case3 l h => simp [onePass]

theorem onePass_min_last (f : String) :
    ∀ (a : Record) (l : List Record),
      ∃ l' m, onePass f (a :: l) = l' ++ [m] ∧ ∀ x ∈ a :: l, skey f m ≤ skey f x
  | a, [] => ⟨[], a, by simp [onePass]⟩
  | a, b :: rest => by
    by_cases h : skey f a < skey f b
    · obtain ⟨l', m, heq, hmin⟩ := onePass_min_last f a rest
      refine ⟨b :: l', m, ?_, ?_⟩
      · simp [onePass, if_pos h, heq]
      · intro x hx
        rcases List.mem_cons.mp hx with rfl | hx
        · exact hmin x (by simp)
        · rcases List.mem_cons.mp hx with rfl | hx
          · exact le_trans (hmin a (by simp)) (le_of_lt h)
          · exact hmin x (by simp [hx])
    · obtain ⟨l', m, heq, hmin⟩ := onePass_min_last f b rest
      refine ⟨a :: l', m, ?_, ?_⟩
      · simp [onePass, if_neg h, heq]
      · intro x hx
        rcases List.mem_cons.mp hx with rfl | hx
        · exact le_trans (hmin b (by simp)) (not_lt.mp h)
        · exact hmin x hx
termination_by a l => l.length

theorem onePass_append_min (f : String) (m : Record) :
    ∀ l : List Record, (∀ x ∈ l, skey f m ≤ skey f x) →
      onePass f (l ++ [m]) = onePass f l ++ [m]
  | [], _ => by simp [onePass]
  | [a], h => by
    have : ¬ skey f a < skey f m := not_lt.mpr (h a (by simp))
    simp [onePass, this]
  | a :: b :: rest, h => by
    by_cases hab : skey f a < skey f b
    · have ih := onePass_append_min f m (a :: rest)
        (fun x hx => h x (by rcases List.mem_cons.mp hx with rfl | hx <;> simp [hx]))
      simp only [List.cons_append, onePass, if_pos hab]
      rw [show a :: (rest ++ [m]) = (a :: rest) ++ [m] from rfl, ih]
    · have ih := onePass_append_min f m (b :: rest)
        (fun x hx => h x (by rcases List.mem_cons.mp hx with rfl | hx <;> simp [hx]))
      simp only [List.cons_append, onePass, if_neg hab]
      rw [show b :: (rest ++ [m]) = (b :: rest) ++ [m] from rfl, ih]
termination_by l => l.length

/-! ### Properties of the iterated passes -/

theorem bubbleAux_perm (f : String) (n : Nat) (l : List Record) :
    List.Perm (bubbleAux f n l) l := by
  induction n generalizing l with
  | zero => exact List.Perm.refl l
  | succ n ih => exact (ih (onePass f l)).trans (onePass_perm f l)

theorem bubbleAux_length (f : String) (n : Nat) (l : List Record) :
    (bubbleAux f n l).length = l.length :=
  (bubbleAux_perm f n l).length_eq

theorem bubbleAux_filter_key (f : String) (k : WithBot ℚ) (n : Nat) (l : List Record) :
    (bubbleAux f n l).filter (fun r => decide (skey f r = k)) =
      l.filter (fun r => decide (skey f r = k)) := by
  induction n generalizing l with
  | zero => rfl
  | succ n ih => rw [bubbleAux, ih, onePass_filter_key]

theorem bubbleAux_of_sorted (f : String) (n : Nat) (l : List Record)
    (h : l.Sorted (fun a b => skey f b ≤ skey f a)) : bubbleAux f n l = l := by
  induction n with
  | zero => rfl
  | succ n ih => rw [bubbleAux, onePass_of_sorted f l h, ih]

theorem bubbleAux_append_min (f : String) (m : Record) (n : Nat) (l : List Record)
    (hm : ∀ x ∈ l, skey f m ≤ skey f x) :
    bubbleAux f n (l ++ [m]) = bubbleAux f n l ++ [m] := by
  induction n generalizing l with
  | zero => rfl
  | succ n ih =>
    rw [bubbleAux, bubbleAux, onePass_append_min f m l hm]
    exact ih (onePass f l) (fun x hx => hm x ((onePass_perm f l).mem_iff.mp hx))

theorem bubbleAux_sorted (f : String) :
    ∀ (n : Nat) (l : List Record), l.length ≤ n + 1 →
      (bubbleAux f n l).Sorted (fun a b => skey f b ≤ skey f a) := by
  intro n
  induction n with
  | zero =>
    intro l hl
    match l, hl with
    | [], _ => exact List.sorted_nil
    | [a], _ => exact List.sorted_singleton a
  | succ n ih =>
    intro l hl
    match l with
    | [] => exact ih (onePass f []) (by simp [onePass])
    | a :: l₂ =>
      obtain ⟨l', m, heq, hmin⟩ := onePass_min_last f a l₂
      have hmem : ∀ x ∈ l', skey f m ≤ skey f x := by
        intro x hx
        refine hmin x ?_
        refine (onePass_perm f (a :: l₂)).mem_iff.mp ?_
        rw [heq]
        simp [hx]
      have hlen : l'.length = l₂.length := by
        have := onePass_length f (a :: l₂)
        rw [heq] at this
        simp at this
        omega
      rw [bubbleAux, heq, bubbleAux_append_min f m n l' hmem]
      rw [List.Sorted, List.pairwise_append]
      refine ⟨ih l' (by simp at hl; omega), List.pairwise_singleton _ _, ?_⟩
      intro x hx y hy
      rcases List.mem_singleton.mp hy with rfl
      refine hmem x ?_
      exact ((bubbleAux_perm f n l').mem_iff).mp hx

/-! ### The sorter's contract -/

theorem sort_trips_descending_sorted (R : List Record) (f : String) :
    (sort_trips_descending R f).Sorted (fun a b => skey f b ≤ skey f a) :=
  bubbleAux_sorted f R.length R (by omega)

theorem sort_trips_descending_perm (R : List Record) (f : String) :
    List.Perm (sort_trips_descending R f) R :=
  bubbleAux_perm f R.length R

theorem sort_trips_descending_length (R : List Record) (f : String) :
    (sort_trips_descending R f).length = R.length :=
  bubbleAux_length f R.length R

theorem sort_trips_descending_filter_key (R : List Record) (f : String) (k : WithBot ℚ) :
    (sort_trips_descending R f).filter (fun r => decide (skey f r = k)) =
      R.filter (fun r => decide (skey f r = k)) :=
  bubbleAux_filter_key f k R.length R

theorem sort_trips_descending_of_sorted (R : List Record) (f : String)
    (h : R.Sorted (fun a b => skey f b ≤ skey f a)) :
    sort_trips_descending R f = R :=
  bubbleAux_of_sorted f R.length R h

/-! ### Properties of the grouping engine -/

theorem group_by_nil (f : String) : group_by [] f = [] := by
  rw [group_by]

theorem group_by_cons (r : Record) (rs : List Record) (f : String) :
    group_by (r :: rs) f =
      (groupKey r f, r :: rs.filter (fun s => groupKey s f == groupKey r f)) ::
        group_by (rs.filter (fun s => !(groupKey s f == groupKey r f))) f := by
  rw [group_by]

theorem group_by_join_perm (f : String) :
    ∀ R : List Record, List.Perm (((group_by R f).map Prod.snd).flatten) R
  | [] => by simp [group_by_nil]
  | r :: rs => by
    have hlen := List.length_filter_le (fun s => !(groupKey s f == groupKey r f)) rs
    have ih := group_by_join_perm f (rs.filter (fun s => !(groupKey s f == groupKey r f)))
    rw [group_by_cons]
    simp only [List.map_cons, List.flatten_cons, List.cons_append]
    refine List.Perm.cons r ?_
    refine List.Perm.trans (List.Perm.append_left _ ih) ?_
    exact List.filter_append_perm _ rs
termination_by R => R.length
decreasing_by
  have := List.length_filter_le (fun s => !(groupKey s f == groupKey r f)) rs
  simp
  omega

theorem map_groupKey_filter (f : String) (k : Value) (rs : List Record) :
    (rs.filter (fun s => !(groupKey s f == k))).map (fun r => groupKey r f) =
      (rs.map (fun r => groupKey r f)).filter (fun x => !(x == k)) := by
  induction rs with
  | nil => rfl
  | cons r rs ih =>
    by_cases h : groupKey r f = k <;> simp [List.filter_cons, h, ih]

theorem group_by_keys (f : String) :
    ∀ R : List Record,
      (group_by R f).map Prod.fst = dedupFirst (R.map (fun r => groupKey r f))
  | [] => by simp [group_by_nil, dedupFirst]
  | r :: rs => by
    have ih := group_by_keys f (rs.filter (fun s => !(groupKey s f == groupKey r f)))
    rw [group_by_cons]
    simp only [List.map_cons]
    rw [dedupFirst, ih, map_groupKey_filter]
termination_by R => R.length
decreasing_by
  have := List.length_filter_le (fun s => !(groupKey s f == groupKey r f)) rs
  simp
  omega

theorem group_by_groups (f : String) :
    ∀ R : List Record, ∀ p ∈ group_by R f,
      (∃ s ∈ R, groupKey s f = p.1) ∧
        p.2 = R.filter (fun x => groupKey x f == p.1)
  | [], p, hp => by simp [group_by_nil] at hp
  | r :: rs, p, hp => by
    rw [group_by_cons] at hp
    rcases List.mem_cons.mp hp with rfl | hp
    · constructor
      · exact ⟨r, by simp, rfl⟩
      · simp [List.filter_cons]
    · obtain ⟨⟨s, hs, hkey⟩, hgrp⟩ :=
        group_by_groups f (rs.filter (fun s => !(groupKey s f == groupKey r f))) p hp
      have hsneg := List.mem_filter.mp hs
      have hne : p.1 ≠ groupKey r f := by
        intro h
        have hsr : groupKey s f = groupKey r f := hkey.trans h
        rw [hsr] at hsneg
        simp at hsneg
      refine ⟨⟨s, List.mem_cons_of_mem r hsneg.1, hkey⟩, ?_⟩
      rw [hgrp, List.filter_filter]
      rw [List.filter_cons]
      have hrk : (groupKey r f == p.1) = false := by
        simp [Ne.symm hne]
      rw [hrk]
      simp only [Bool.false_eq_true, if_false]
      refine List.filter_congr ?_
      intro x hx
      by_cases h : groupKey x f = p.1
      · simp [h]
        exact hne
      · simp [h]
termination_by R => R.length
decreasing_by
  have := List.length_filter_le (fun s => !(groupKey s f == groupKey r f)) rs
  simp
  omega

theorem mem_dedupFirst :
    ∀ (ks : List Value) (x : Value), x ∈ dedupFirst ks → x ∈ ks
  | [], x, hx => by simp [dedupFirst] at hx
  | k :: rest, x, hx => by
    rw [dedupFirst] at hx
    rcases List.mem_cons.mp hx with rfl | hx
    · simp
    · have := mem_dedupFirst (rest.filter (fun y => !(y == k))) x hx
      exact List.mem_cons_of_mem k (List.mem_filter.mp this).1
termination_by ks x => ks.length
decreasing_by
  have := List.length_filter_le (fun y => !(y == k)) rest
  simp
  omega

theorem group_by_covers (f : String) (R : List Record) :
    ∀ r ∈ R, ∃ p ∈ group_by R f, r ∈ p.2 := by
  intro r hr
  have hmem : r ∈ ((group_by R f).map Prod.snd).flatten :=
    (group_by_join_perm f R).mem_iff.mpr hr
  obtain ⟨l, hl, hrl⟩ := List.mem_flatten.mp hmem
  obtain ⟨p, hp, rfl⟩ := List.mem_map.mp hl
  exact ⟨p, hp, hrl⟩

theorem dedupFirst_nodup : ∀ ks : List Value, (dedupFirst ks).Nodup
  | [] => by simp [dedupFirst]
  | k :: rest => by
    rw [dedupFirst]
    refine List.nodup_cons.mpr ⟨?_, dedupFirst_nodup (rest.filter (fun y => !(y == k)))⟩
    intro hk
    have := mem_dedupFirst (rest.filter (fun y => !(y == k))) k hk
    simp at this
termination_by ks => ks.length
decreasing_by
  have := List.length_filter_le (fun y => !(y == k)) rest
  simp
  omega

/-! ### The claims -/

/-- C1: `sort_trips_descending R f` is a permutation of `R` with the same
length, its records are ordered non-increasing by the ordering key of field
`f` (null/missing below every present numeric value), and the sort is
stable: for every key value, the subsequence of records carrying that key is
exactly the corresponding subsequence of the input, so records with equal
`f`-values keep their original relative order. -/
theorem claim_C1_sort_descending_correct (R : List Record) (f : String) :
    List.Perm (sort_trips_descending R f) R ∧
    (sort_trips_descending R f).length = R.length ∧
    (sort_trips_descending R f).Sorted (fun a b => skey f b ≤ skey f a) ∧
    ∀ k : WithBot ℚ,
      (sort_trips_descending R f).filter (fun r => decide (skey f r = k)) =
        R.filter (fun r => decide (skey f r = k)) :=
  ⟨sort_trips_descending_perm R f, sort_trips_descending_length R f,
    sort_trips_descending_sorted R f,
    fun k => sort_trips_descending_filter_key R f k⟩

/-- C6: sorting is idempotent — sorting an already sorted sequence changes
nothing, because a sorted sequence is a fixed point of every bubble pass. -/
theorem claim_C6_sort_descending_idempotent (R : List Record) (f : String) :
    sort_trips_descending (sort_trips_descending R f) f = sort_trips_descending R f :=
  sort_trips_descending_of_sorted (sort_trips_descending R f) f
    (sort_trips_descending_sorted R f)

/-- C2: `find_top_n R f n` is exactly the first `min(n, |R|)` elements of
the full descending sort: `n ≤ 0` gives the empty sequence and `n ≥ |R|`
gives the whole sorted population, with ties kept in input order because the
sort is stable. -/
theorem claim_C2_top_n_refines_sort (R : List Record) (f : String) (n : Int) :
    find_top_n R f n = (sort_trips_descending R f).take (min n.toNat R.length) ∧
    (find_top_n R f n).length = min n.toNat R.length ∧
    (n ≤ 0 → find_top_n R f n = []) ∧
    ((R.length : Int) ≤ n → find_top_n R f n = sort_trips_descending R f) := by
  have hslen := sort_trips_descending_length R f
  have h1 : find_top_n R f n = (sort_trips_descending R f).take (min n.toNat R.length) := by
    unfold find_top_n
    by_cases h : n ≤ 0
    · simp [h, Int.toNat_of_nonpos h]
    · rw [if_neg h, List.take_eq_take]
      omega
  refine ⟨h1, ?_, ?_, ?_⟩
  · rw [h1, List.length_take]
    omega
  · intro h
    simp [find_top_n, h]
  · intro h
    rw [h1]
    apply List.take_of_length_le
    rw [hslen]
    omega

/-- C2 witness: on the four example trips, asking for the top 9 returns the
whole sorted population. -/
theorem claim_C2_witness :
    find_top_n exampleTrips "amt" 9 = sort_trips_descending exampleTrips "amt" :=
  (claim_C2_top_n_refines_sort exampleTrips "amt" 9).2.2.2 (by decide)

/-- C3: `group_by R f` partitions `R` exactly — the concatenation of the
groups is a permutation of `R` (no record dropped or duplicated), the group
keys are pairwise distinct and listed in first-occurrence order, each group
holds exactly the records of `R` carrying its key (in input order), and every
record of `R` lands in some group; a null or missing key forms the
`Value.null` group rather than raising. -/
theorem claim_C3_group_by_partitions (R : List Record) (f : String) :
    List.Perm (((group_by R f).map Prod.snd).flatten) R ∧
    ((group_by R f).map Prod.fst).Nodup ∧
    (group_by R f).map Prod.fst = dedupFirst (R.map (fun r => groupKey r f)) ∧
    (∀ p ∈ group_by R f, p.2 = R.filter (fun x => groupKey x f == p.1)) ∧
    (∀ r ∈ R, ∃ p ∈ group_by R f, r ∈ p.2) := by
  refine ⟨group_by_join_perm f R, ?_, group_by_keys f R,
    fun p hp => (group_by_groups f R p hp).2, group_by_covers f R⟩
  rw [group_by_keys f R]
  exact dedupFirst_nodup _

/-- C3 witness: in the grouping example the first record (borough Q) lands
in a group of `group_by`. -/
theorem claim_C3_witness :
    ∃ p ∈ group_by exampleGrouped "b",
      ([("b", Value.str "Q"), ("amt", Value.num 10)] : Record) ∈ p.2 :=
  (claim_C3_group_by_partitions exampleGrouped "b").2.2.2.2
    [("b", Value.str "Q"), ("amt", Value.num 10)] (by decide)

/-- C4: every entry of `calculate_average_by_group R g v` maps its group key
to the exact arithmetic mean of the values of `v` over the records of that
group whose `v` is present and numeric — eligible values `[a, b, c]` give
`(a + b + c) / 3` exactly — and a group with no eligible value is mapped to
the sentinel `0`, not to an error. -/
theorem claim_C4_average_by_group (R : List Record) (g v : String) :
    ∀ p ∈ calculate_average_by_group R g v,
      (eligibleValues (R.filter (fun x => groupKey x g == p.1)) v = [] → p.2 = 0) ∧
      (eligibleValues (R.filter (fun x => groupKey x g == p.1)) v ≠ [] →
        p.2 = (eligibleValues (R.filter (fun x => groupKey x g == p.1)) v).sum /
          ((eligibleValues (R.filter (fun x => groupKey x g == p.1)) v).length : ℚ)) := by
  intro p hp
  obtain ⟨q, hq, rfl⟩ := List.mem_map.mp hp
  obtain ⟨_, hgrp⟩ := group_by_groups g R q hq
  rw [← hgrp]
  constructor
  · intro he
    simp [meanOrZero, he]
  · intro he
    have hlen : (eligibleValues q.2 v).length ≠ 0 := by
      simpa [List.length_eq_zero] using he
    simp [meanOrZero, hlen]

/-- C4 witness: the borough-B group of the grouping example has the single
eligible value 20, and its reported mean is exactly 20. -/
theorem claim_C4_witness :
    (20 : ℚ) =
      (eligibleValues (exampleGrouped.filter
        (fun x => groupKey x "b" == Value.str "B")) "amt").sum /
      ((eligibleValues (exampleGrouped.filter
        (fun x => groupKey x "b" == Value.str "B")) "amt").length : ℚ) :=
  (claim_C4_average_by_group exampleGrouped "b" "amt" (Value.str "B", 20)
    (by simp [calculate_average_by_group, group_by_cons, group_by_nil, groupKey,
      getField, exampleGrouped, eligibleValues, meanOrZero])).2 (by decide)

/-- C5: the comparison key used for ordering puts a null or missing sort
field strictly below every present numeric value, and consequently in the
output of `sort_trips_descending` no record without a key precedes a record
with one: null/missing records sort to the end. -/
theorem claim_C5_null_sorts_last (R : List Record) (f : String) (r s : Record) (q : ℚ)
    (hr : getField r f = none ∨ getField r f = some Value.null)
    (hs : getField s f = some (Value.num q)) :
    skey f r < skey f s ∧
    List.Pairwise (fun a b => skey f a = ⊥ → skey f b = ⊥)
      (sort_trips_descending R f) := by
  constructor
  · have h1 : skey f r = ⊥ := by
      rcases hr with h | h <;> simp [skey, h]
    have h2 : skey f s = (q : WithBot ℚ) := by
      simp [skey, hs]
    rw [h1, h2]
    exact WithBot.bot_lt_coe q
  · refine (sort_trips_descending_sorted R f).imp ?_
    intro a b hab
    intro hbot
    rw [hbot] at hab
    exact le_bot_iff.mp hab

/-- C5 witness: a record with no `amt` field compares strictly below the
example record with `amt = 10`, and the two-record sort keeps null last. -/
theorem claim_C5_witness :
    skey "amt" [("id", Value.num 9)] <
      skey "amt" [("id", Value.num 1), ("amt", Value.num 10)] ∧
    List.Pairwise (fun a b => skey "amt" a = ⊥ → skey "amt" b = ⊥)
      (sort_trips_descending
        [[("id", Value.num 9)], [("id", Value.num 1), ("amt", Value.num 10)]] "amt") :=
  claim_C5_null_sorts_last
    [[("id", Value.num 9)], [("id", Value.num 1), ("amt", Value.num 10)]]
    "amt" [("id", Value.num 9)] [("id", Value.num 1), ("amt", Value.num 10)] 10
    (Or.inl (by decide)) (by decide)

/-- C8: sorting by a field name absent from the schema fails with the typed
`UnknownFieldError`, surfaced to the caller as the error branch; a known
field returns exactly the stable descending sort of the given records, so
the core fabricates nothing beyond the documented policies. -/
theorem claim_C8_unknown_field_error (schema : List String) (R : List Record)
    (f : String) :
    (f ∉ schema →
      sort_descending_checked schema R f = Except.error CoreError.unknownFieldError) ∧
    (f ∈ schema →
      sort_descending_checked schema R f = Except.ok (sort_trips_descending R f)) := by
  constructor <;> intro h <;> simp [sort_descending_checked, h]

/-- C8 witness: sorting the example trips by the unknown field `bogus`
against the trip schema errors out. -/
theorem claim_C8_witness :
    sort_descending_checked
      ["trip_id", "total_amount", "trip_distance", "pickup_time",
       "pickup_location", "dropoff_location", "speed"]
      exampleTrips "bogus" = Except.error CoreError.unknownFieldError :=
  (claim_C8_unknown_field_error
    ["trip_id", "total_amount", "trip_distance", "pickup_time",
     "pickup_location", "dropoff_location", "speed"]
    exampleTrips "bogus").1 (by decide)

/-- C9: the borough-custom endpoint returns the documented message and
algorithm strings together with data obtained by grouping the fetched
`(borough, total_amount)` rows by borough, averaging `total_amount` with the
aggregator at full precision, and rounding each mean to 2 decimal places
only in the response layer: every data entry is the 2-decimal rounding of an
exact aggregator mean. -/
theorem claim_C9_borough_custom (results : List (Value × Value)) :
    (get_borough_stats_custom results).message =
      "Borough averages calculated with custom algorithm" ∧
    (get_borough_stats_custom results).algorithm =
      "Manual grouping and aggregation (not SQL GROUP BY)" ∧
    (get_borough_stats_custom results).data =
      (calculate_average_by_group
        (results.map (fun row => [("borough", row.1), ("total_amount", row.2)]))
        "borough" "total_amount").map (fun p => (p.1, round2 p.2)) ∧
    ∀ e ∈ (get_borough_stats_custom results).data,
      ∃ m, (e.1, m) ∈ calculate_average_by_group
          (results.map (fun row => [("borough", row.1), ("total_amount", row.2)]))
          "borough" "total_amount" ∧ e.2 = round2 m := by
  refine ⟨rfl, rfl, rfl, ?_⟩
  intro e he
  obtain ⟨p, hp, rfl⟩ := List.mem_map.mp he
  exact ⟨p.2, hp, rfl⟩

/-- C9 witness: with a single Brooklyn row of amount 20, the single data
entry is the rounded aggregator mean of that borough. -/
theorem claim_C9_witness :
    ∃ m, ((Value.str "Brooklyn", round2 20).1, m) ∈ calculate_average_by_group
        ([(Value.str "Brooklyn", Value.num 20)].map
          (fun row => [("borough", row.1), ("total_amount", row.2)]))
        "borough" "total_amount" ∧
      (Value.str "Brooklyn", round2 20).2 = round2 m :=
  (claim_C9_borough_custom [(Value.str "Brooklyn", Value.num 20)]).2.2.2
    (Value.str "Brooklyn", round2 20)
    (by simp [get_borough_stats_custom, calculate_average_by_group, group_by_cons,
      group_by_nil, groupKey, getField, eligibleValues, meanOrZero])

/-- C10: the custom-sort endpoint returns `sorted_trips[:limit]` with Python
slice semantics: `returned` always equals the length of the data; a
non-negative limit yields the first `min(limit, total_processed)` sorted
records; a negative limit yields all sorted records except the last `|limit|`
of them, which is empty exactly when `|limit| ≥ total_processed` — not an
error. -/
theorem claim_C10_custom_sort_slice (trips : List Record) (f : String) (limit : Int) :
    (get_custom_sorted_trips trips f limit).returned =
      (get_custom_sorted_trips trips f limit).data.length ∧
    (get_custom_sorted_trips trips f limit).total_processed = trips.length ∧
    (0 ≤ limit → (get_custom_sorted_trips trips f limit).data =
      (sort_trips_descending trips f).take (min limit.toNat trips.length)) ∧
    (limit < 0 →
      (get_custom_sorted_trips trips f limit).data =
        (sort_trips_descending trips f).take (trips.length - (-limit).toNat) ∧
      ((get_custom_sorted_trips trips f limit).data = [] ↔
        trips.length ≤ (-limit).toNat)) := by
  have hslen := sort_trips_descending_length trips f
  refine ⟨rfl, rfl, ?_, ?_⟩
  · intro h
    simp only [get_custom_sorted_trips, pySliceTo, if_pos h]
    rw [List.take_eq_take]
    omega
  · intro h
    have hneg : ¬ 0 ≤ limit := by omega
    constructor
    · simp only [get_custom_sorted_trips, pySliceTo, if_neg hneg, hslen]
    · simp only [get_custom_sorted_trips, pySliceTo, if_neg hneg, hslen]
      rw [List.take_eq_nil_iff]
      constructor
      · rintro (h0 | hnil)
        · omega
        · have hz : trips.length = 0 := by
            rw [← hslen, hnil]
            rfl
          omega
      · intro hle
        left
        omega

/-- C10 witness: on the four example trips with limit `-1`, the endpoint
returns all but the last sorted record, and the data is not empty. -/
theorem claim_C10_witness :
    (get_custom_sorted_trips exampleTrips "amt" (-1)).data =
      (sort_trips_descending exampleTrips "amt").take
        (exampleTrips.length - (-(-1 : Int)).toNat) ∧
    ((get_custom_sorted_trips exampleTrips "amt" (-1)).data = [] ↔
      exampleTrips.length ≤ (-(-1 : Int)).toNat) :=
  (claim_C10_custom_sort_slice exampleTrips "amt" (-1)).2.2.2 (by decide)

end TaxiApi
